import Mathlib

/-!
# Verification of the ivy `Container` tree (src/ivy/core/container.py)

A `Container` is a python `dict` subclass whose values are either nested
`Container`s (branches) or arbitrary leaf values.  We embed it as the mutual
inductive `Container`/`CNode`: a `Container` is the dict (a list of key/value
entries in insertion order), a `CNode` is a stored value (leaf or
sub-container).

Python behaviours are modelled as follows:
* `sorted(self.items())` becomes `sortEntries` (insertion sort on the key;
  keys are unique in a python dict, so comparing only keys is exact);
* the `Container.__init__` normalisation (sort the items, recursively rewrap
  nested dicts) becomes `containerCtor`;
* raising exceptions becomes returning `Except PyErr`;
* in-place mutation of an argument (e.g. `flat_list.pop(0)`) becomes explicit
  state passing: the function returns the mutated value.
-/

/-- Python exception kinds that the modelled code can raise. -/
inductive PyErr where
  | keyError
  | typeError
  | indexError
  | valueError
  | reductionError
deriving DecidableEq, Repr

mutual
/-- A `Container`: a dict from string keys to nodes, in insertion order. -/
inductive Container (α : Type) : Type where
  | mk : List (String × CNode α) → Container α

/-- A stored value: either a leaf (any non-dict python value) or a sub-container. -/
inductive CNode (α : Type) : Type where
  | leaf : α → CNode α
  | sub : Container α → CNode α
end

mutual
def decEqContainer [DecidableEq α] : (a b : Container α) → Decidable (a = b)
  | .mk es, .mk fs =>
    match decEqEntryList es fs with
    | isTrue h => isTrue (by rw [h])
    | isFalse h => isFalse (fun hh => by cases hh; exact h rfl)

def decEqEntryList [DecidableEq α] :
    (a b : List (String × CNode α)) → Decidable (a = b)
  | [], [] => isTrue rfl
  | [], _ :: _ => isFalse (fun h => by cases h)
  | _ :: _, [] => isFalse (fun h => by cases h)
  | (k, v) :: l, (k', v') :: l' =>
    match decEq k k', decEqCNode v v', decEqEntryList l l' with
    | isTrue h1, isTrue h2, isTrue h3 => isTrue (by rw [h1, h2, h3])
    | isFalse h1, _, _ => isFalse (fun h => by cases h; exact h1 rfl)
    | _, isFalse h2, _ => isFalse (fun h => by cases h; exact h2 rfl)
    | _, _, isFalse h3 => isFalse (fun h => by cases h; exact h3 rfl)

def decEqCNode [DecidableEq α] : (a b : CNode α) → Decidable (a = b)
  | .leaf x, .leaf y =>
    match decEq x y with
    | isTrue h => isTrue (by rw [h])
    | isFalse h => isFalse (fun hh => by cases hh; exact h rfl)
  | .leaf _, .sub _ => isFalse (fun h => by cases h)
  | .sub _, .leaf _ => isFalse (fun h => by cases h)
  | .sub c, .sub d =>
    match decEqContainer c d with
    | isTrue h => isTrue (by rw [h])
    | isFalse h => isFalse (fun hh => by cases hh; exact h rfl)
end

instance [DecidableEq α] : DecidableEq (Container α) := decEqContainer

instance [DecidableEq α] : DecidableEq (CNode α) := decEqCNode

/-- The underlying entry list of a container. -/
def Container.entries : Container α → List (String × CNode α)
  | .mk es => es

/-- Python dict lookup `d[k]` restricted to the successful case. -/
def lookupKey (k : String) : List (String × β) → Option β
  | [] => none
  | (k', v) :: l => if k' = k then some v else lookupKey k l

/-- Python string comparison `a < b`: lexicographic by character code.
(Equivalent to Lean's `String` order, stated on the character lists so that
it evaluates by kernel reduction.) -/
def charsLt : List Char → List Char → Bool
  | _, [] => false
  | [], _ :: _ => true
  | a :: as, b :: bs => decide (a < b) || (decide (a = b) && charsLt as bs)

def strLt (a b : String) : Bool := charsLt a.data b.data

/-- Insert an entry into a key-sorted entry list, keeping it sorted. -/
def insortEntry (p : String × β) : List (String × β) → List (String × β)
  | [] => [p]
  | q :: l => if strLt q.1 p.1 then q :: insortEntry p l else p :: q :: l

/-- `sorted(d.items())`: sort the entries by key (keys are unique in a dict). -/
def sortEntries : List (String × β) → List (String × β)
  | [] => []
  | p :: l => insortEntry p (sortEntries l)

theorem sizeOf_insortEntry [SizeOf β] (p : String × β)
    (l : List (String × β)) : sizeOf (insortEntry p l) = sizeOf (p :: l) := by
  induction l with
  | nil => simp [insortEntry]
  | cons q l ih =>
    simp only [insortEntry]
    split
    · simp [ih]; omega
    · rfl

theorem sizeOf_sortEntries [SizeOf β] (l : List (String × β)) :
    sizeOf (sortEntries l) = sizeOf l := by
  induction l with
  | nil => rfl
  | cons p l ih => simp [sortEntries, sizeOf_insortEntry, ih]

/-- Keys in strictly increasing (python string) order: the canonical order a
`Container` maintains. -/
def keysStrictSorted : List String → Bool
  | [] => true
  | [_] => true
  | a :: b :: l => strLt a b && keysStrictSorted (b :: l)

/-- Every sub-container inside the entry list is key-sorted (recursively). -/
def entriesWF : List (String × CNode α) → Bool
  | [] => true
  | (_, .leaf _) :: l => entriesWF l
  | (_, .sub (.mk es)) :: l =>
    keysStrictSorted (es.map Prod.fst) && entriesWF es && entriesWF l

/-- The canonical-form invariant `Container.__init__` establishes:
all keys sorted, at every level. -/
def Container.WF (c : Container α) : Bool :=
  keysStrictSorted (c.entries.map Prod.fst) && entriesWF c.entries

/-- Canonical form for a stored node. -/
def CNode.WF : CNode α → Bool
  | .leaf _ => true
  | .sub c => c.WF

/-- Body of `Container.__init__` on an entry list: iterate `sorted(items)`,
rewrapping every nested dict as a fresh `Container` (which re-sorts it). -/
def ctorEntries : List (String × CNode α) → List (String × CNode α)
  | [] => []
  | (k, .leaf v) :: l => (k, .leaf v) :: ctorEntries l
  | (k, .sub (.mk es)) :: l =>
    (k, .sub (.mk (ctorEntries (sortEntries es)))) :: ctorEntries l
termination_by l => sizeOf l
decreasing_by
  all_goals simp [sizeOf_sortEntries]
  all_goals omega

/-- `Container(d)`: normalise a dict into a canonical container. -/
def containerCtor (c : Container α) : Container α :=
  .mk (ctorEntries (sortEntries c.entries))

/-! ## `to_iterator`, `to_flat_list` (lines 1126-1145)

`to_iterator` walks `sorted(self.items())`; for a sub-container it does
`yield from value.to_iterator()`, otherwise it yields `(key, value)` —
note: the *immediate* key only. -/

def iterEntries : List (String × CNode α) → List (String × α)
  | [] => []
  | (k, .leaf v) :: l => (k, v) :: iterEntries l
  | (_, .sub (.mk es)) :: l => iterEntries (sortEntries es) ++ iterEntries l
termination_by l => sizeOf l
decreasing_by
  all_goals simp [sizeOf_sortEntries]
  all_goals omega

def Container.to_iterator (c : Container α) : List (String × α) :=
  iterEntries (sortEntries c.entries)

def Container.to_flat_list (c : Container α) : List α :=
  (c.to_iterator).map Prod.snd

/-! ## `from_flat_list` (lines 1147-1162)

Walks `sorted(self.items())`; recurses into sub-containers, otherwise pops
the head of the (caller-owned, mutated!) flat list; finally rebuilds with
`Container(new_dict)`.  `pop(0)` on an empty list raises `IndexError`; the
mutation is modelled by returning the remaining flat list. -/

def fflEntries : List (String × CNode α) → List β →
    Except PyErr (List (String × CNode β) × List β)
  | [], fl => .ok ([], fl)
  | (k, .leaf _) :: l, fl =>
    match fl with
    | [] => .error .indexError
    | x :: fl' => do
      let (nl, fl'') ← fflEntries l fl'
      .ok ((k, .leaf x) :: nl, fl'')
  | (k, .sub (.mk es)) :: l, fl => do
    let (nes, fl') ← fflEntries (sortEntries es) fl
    let (nl, fl'') ← fflEntries l fl'
    .ok ((k, .sub (containerCtor (.mk nes))) :: nl, fl'')
termination_by l => sizeOf l
decreasing_by
  all_goals simp [sizeOf_sortEntries]
  all_goals omega

def Container.from_flat_list (c : Container α) (fl : List β) :
    Except PyErr (Container β × List β) := do
  let (nl, fl') ← fflEntries (sortEntries c.entries) fl
  .ok (containerCtor (.mk nl), fl')

/-- Accumulate a slash-delimited key chain:
`this_key_chain = key if key_chain == '' else key_chain + '/' + key`. -/
def chainJoin (pre k : String) : String :=
  if pre = "" then k else pre ++ "/" ++ k

/-! ## `map` (lines 1320-1352)

Recursive walk over `sorted(self.items())`, accumulating the slash-joined
key chain.  A sub-container's result is kept only if it is truthy, i.e.
non-empty (`if ret:`).  For a leaf, when `key_chains` is given, the function
is skipped iff `(chain ∈ key_chains) ≠ to_apply`; a skipped leaf is dropped
when `prune_unapplied` and copied through otherwise. -/

def mapEntries (f : α → String → α) (kcs : Option (List String)) (ta pr : Bool) :
    List (String × CNode α) → String → List (String × CNode α)
  | [], _ => []
  | (k, v) :: l, kc =>
    let tkc := chainJoin kc k
    match v with
    | .sub (.mk es) =>
      let ret := containerCtor (.mk (mapEntries f kcs ta pr (sortEntries es) tkc))
      if ret.entries.isEmpty then mapEntries f kcs ta pr l kc
      else (k, .sub ret) :: mapEntries f kcs ta pr l kc
    | .leaf x =>
      match kcs with
      | some kcl =>
        if (tkc ∈ kcl ∧ ¬ ta = true) ∨ (tkc ∉ kcl ∧ ta = true) then
          if pr then mapEntries f kcs ta pr l kc
          else (k, .leaf x) :: mapEntries f kcs ta pr l kc
        else (k, .leaf (f x tkc)) :: mapEntries f kcs ta pr l kc
      | none => (k, .leaf (f x tkc)) :: mapEntries f kcs ta pr l kc
termination_by l _ => sizeOf l
decreasing_by
  all_goals simp [sizeOf_sortEntries]
  all_goals omega

def Container.map (c : Container α) (f : α → String → α)
    (kcs : Option (List String)) (ta pr : Bool) (kc : String) : Container α :=
  containerCtor (.mk (mapEntries f kcs ta pr (sortEntries c.entries) kc))

/-! ## `Container.reduce` (lines 299-321)

Static method: `containers[0]` decides the shape.  If it is a dict, iterate
*its* keys only, and look up `container[key]` in every container (a missing
key raises `KeyError`; indexing a non-dict leaf raises `TypeError`).  At a
leaf, call `reduction(containers)`; any exception it raises is wrapped.
`containers[0]` of an empty list raises `IndexError`. -/

/-- A python list comprehension whose element expression may raise: build the
results in order, propagating the first exception. -/
def exceptMapList (g : γ → Except PyErr δ) : List γ → Except PyErr (List δ)
  | [] => .ok []
  | x :: l => do
    let y ← g x
    let ys ← exceptMapList g l
    .ok (y :: ys)

/-- The `Option` analogue, used by the spec-side reduction. -/
def optionMapList (g : γ → Option δ) : List γ → Option (List δ)
  | [] => some []
  | x :: l => do
    let y ← g x
    let ys ← optionMapList g l
    some (y :: ys)

def getKey (k : String) : CNode α → Except PyErr (CNode α)
  | .sub (.mk es) =>
    match lookupKey k es with
    | some v => .ok v
    | none => .error .keyError
  | .leaf _ => .error .typeError

mutual
def credNode (f : List (CNode α) → Except PyErr α) :
    CNode α → List (CNode α) → Except PyErr (CNode α)
  | .sub (.mk es), rest => do
    let nl ← credEntries f es rest
    .ok (.sub (containerCtor (.mk nl)))
  | .leaf v, rest =>
    match f (.leaf v :: rest) with
    | .ok r => .ok (.leaf r)
    | .error _ => .error .reductionError

def credEntries (f : List (CNode α) → Except PyErr α) :
    List (String × CNode α) → List (CNode α) →
    Except PyErr (List (String × CNode α))
  | [], _ => .ok []
  | (k, v) :: l, rest => do
    let others ← exceptMapList (getKey k) rest
    let r ← credNode f v others
    let nl ← credEntries f l rest
    .ok ((k, r) :: nl)
end

def containerReduce (f : List (CNode α) → Except PyErr α) :
    List (CNode α) → Except PyErr (CNode α)
  | [] => .error .indexError
  | c0 :: rest => credNode f c0 rest

/-! ## `has_key_chain` (lines 1174-1187)

Splits on `/` and walks `ret = ret[key]`, catching **only** `KeyError`
(returning `False`); indexing a non-dict leaf raises `TypeError`, which
escapes. -/

/-- Python `s.split('/')`: split a string at every slash (an empty string
gives `[""]`, adjacent slashes give empty segments). -/
def pySplitChars (sep : Char) : List Char → List (List Char)
  | [] => [[]]
  | c :: cs =>
    let r := pySplitChars sep cs
    if c = sep then [] :: r
    else (c :: r.headD []) :: r.tail

def pySplit (s : String) (sep : Char) : List String :=
  (pySplitChars sep s.data).map (fun l => String.mk l)

def hkcWalk : List String → CNode α → Except PyErr Bool
  | [], _ => .ok true
  | k :: l, .sub (.mk es) =>
    match lookupKey k es with
    | some v => hkcWalk l v
    | none => .ok false
  | _ :: _, .leaf _ => .error .typeError

def Container.has_key_chain (c : Container α) (kc : String) : Except PyErr Bool :=
  hkcWalk (pySplit kc '/') (.sub c)

/-! ## `set_at_key_chain` (lines 1219-1232)

Walks `keys[:-1]`, creating an empty `Container({})` for each missing key,
then assigns at the last key and returns the (in-place mutated) tree.
Stepping through (or finally assigning into) a non-dict leaf raises. -/

/-- Python dict assignment `d[k] = v`: replace in place, or append if new. -/
def setEntriesKey (k : String) (n : β) :
    List (String × β) → List (String × β)
  | [] => [(k, n)]
  | (k', v) :: l => if k' = k then (k, n) :: l else (k', v) :: setEntriesKey k n l

def setKCEntries : List (String × CNode α) → List String → CNode α →
    Except PyErr (List (String × CNode α))
  | _, [], _ => .error .indexError
  | es, [k], v => .ok (setEntriesKey k v es)
  | es, k :: k' :: ks, v =>
    match lookupKey k es with
    | some (.sub (.mk fs)) => do
      let nfs ← setKCEntries fs (k' :: ks) v
      .ok (setEntriesKey k (.sub (.mk nfs)) es)
    | some (.leaf _) => .error .typeError
    | none => do
      let nfs ← setKCEntries [] (k' :: ks) v
      .ok (setEntriesKey k (.sub (.mk nfs)) es)

def Container.set_at_key_chain (c : Container α) (kc : String) (v : CNode α) :
    Except PyErr (Container α) :=
  (setKCEntries c.entries (pySplit kc '/') v).map .mk

/-! ## Specification-side helpers

These definitions follow the *spec's* description (full slash-delimited
key-chains, pure child-lookup resolution, exact-topology zipping); they are
compared with the code-derived definitions above in the theorems. -/

/-- Modelled from the spec: the depth-first leaf sequence, each leaf with its
immediate key and its full slash-delimited key-chain from the root.  Entry
lists are taken in the order stored (canonical containers are key-sorted, so
this is the lexicographic order the spec describes). -/
def leafRecs : List (String × CNode α) → String → List (String × String × α)
  | [], _ => []
  | (k, .leaf v) :: l, pre => (k, chainJoin pre k, v) :: leafRecs l pre
  | (k, .sub (.mk es)) :: l, pre => leafRecs es (chainJoin pre k) ++ leafRecs l pre

/-- Modelled from the spec: the `(full key-chain, value)` pairs of all leaves,
depth-first. -/
def Container.leafChains (c : Container α) (pre : String) : List (String × α) :=
  (leafRecs c.entries pre).map (fun r => (r.2.1, r.2.2))

/-- Modelled from the spec: resolve a key-chain by repeated child lookup from
the root; `none` when a segment is missing or a leaf is hit mid-path. -/
def resolveNode : CNode α → List String → Option (CNode α)
  | n, [] => some n
  | .sub (.mk es), k :: l =>
    match lookupKey k es with
    | some v => resolveNode v l
    | none => none
  | .leaf _, _ :: _ => none

/-- Modelled from the spec side (classifier): the walk meets a leaf while
segments remain, which is the situation where `ret[key]` raises `TypeError`. -/
def hitsLeafMidPath : CNode α → List String → Bool
  | _, [] => false
  | .leaf _, _ :: _ => true
  | .sub (.mk es), k :: l =>
    match lookupKey k es with
    | some v => hitsLeafMidPath v l
    | none => false

mutual
/-- Modelled from the spec: multi-tree reduction over trees of *identical*
topology: pair corresponding children by key at every level, and apply the
reduction to the list of corresponding leaves at each leaf position. -/
def specReduce (f : List (CNode α) → Except PyErr α) :
    CNode α → List (CNode α) → Option (CNode α)
  | .leaf v, rest =>
    if rest.all (fun t => match t with | .leaf _ => true | .sub _ => false) then
      match f (.leaf v :: rest) with
      | .ok r => some (.leaf r)
      | .error _ => none
    else none
  | .sub (.mk es), rest =>
    if rest.all (fun t =>
        match t with
        | .sub (.mk fs) => decide (fs.map Prod.fst = es.map Prod.fst)
        | .leaf _ => false) then
      (specReduceEntries f es rest).map (fun nl => .sub (.mk nl))
    else none

def specReduceEntries (f : List (CNode α) → Except PyErr α) :
    List (String × CNode α) → List (CNode α) →
    Option (List (String × CNode α))
  | [], _ => some []
  | (k, v) :: l, rest => do
    let others ← optionMapList (fun t =>
      match t with
      | .sub (.mk fs) => lookupKey k fs
      | .leaf _ => none) rest
    let r ← specReduce f v others
    let nl ← specReduceEntries f l rest
    some ((k, r) :: nl)
end

mutual
/-- Number of leaves below a node (the number of values `from_flat_list`
pops from the caller's list for that node). -/
def nodeLeafCount : CNode α → Nat
  | .leaf _ => 1
  | .sub (.mk es) => entriesLeafCount es

def entriesLeafCount : List (String × CNode α) → Nat
  | [] => 0
  | e :: l => nodeLeafCount e.2 + entriesLeafCount l
end

def Container.leafCount (c : Container α) : Nat :=
  entriesLeafCount c.entries

/-! ## `_get_shape` / `shape` (lines 326-338, 1596-1601)

Leaves are dynamically-typed python values; `PyVal` is the universe needed
here (ints, lists, `None`, and ndarrays abstracted to their shape).  The
numpy float arithmetic `prod(arr / arr[0:1], 0) == 1` is modelled by exact
rational arithmetic, which coincides with it on the small integer shapes at
issue. -/

inductive PyVal : Type where
  | intv : Int → PyVal
  | listv : List PyVal → PyVal
  | arrv : List Nat → PyVal
  | nonev : PyVal

/-- `ivy.is_array(x)` for our value universe. -/
def pyIsArray : PyVal → Bool
  | .arrv _ => true
  | _ => false

/-- `list(x.shape)` of an ndarray. -/
def pyArrShape : PyVal → List Nat
  | .arrv s => s
  | _ => []

/-- `isinstance(x, (list, tuple))`. -/
def pyIsSeq : PyVal → Bool
  | .listv _ => true
  | _ => false

/-- `len(x)` of a python list. -/
def pyLen : PyVal → Nat
  | .listv l => l.length
  | _ => 0

/-- Python truthiness of the values the shape lambda can produce
(`if v` keeps a value iff it is neither `None` nor empty). -/
def pyTruthy : PyVal → Bool
  | .nonev => false
  | .listv [] => false
  | .listv (_ :: _) => true
  | .intv n => decide (n ≠ 0)
  | .arrv _ => true

/-- The lambda passed to `self.map` inside `_get_shape`. -/
def shapeLambda (x : PyVal) (_kc : String) : PyVal :=
  if pyIsArray x then .listv ((pyArrShape x).map (fun d => .intv (d : Int)))
  else if pyIsSeq x then .listv [.intv (pyLen x : Int)]
  else .nonev

/-- `np.asarray` coercion of one produced shape value to a row of ints. -/
def pyToIntList : PyVal → List Int
  | .listv l => l.map (fun v => match v with | .intv n => n | _ => 0)
  | _ => []

/-- The filtered `sub_shapes` list of `_get_shape`. -/
def Container.subShapes (c : Container PyVal) : List (List Int) :=
  ((((c.map shapeLambda none true false "").to_iterator).map Prod.snd).filter
    pyTruthy).map pyToIntList

/-- `Container._get_shape`: `[0]` for an empty container; otherwise truncate
every collected shape to the minimum rank, replace `0` by `-1`, and report
position `j` as the first row's value when the column's product of ratios
against the first row is `1`, else `None`.  `min([])` raises `ValueError`
when no leaf yields a shape. -/
def Container.get_shape (c : Container PyVal) : Except PyErr (List (Option Int)) :=
  if c.entries.isEmpty then .ok [some 0]
  else
    let shapes := c.subShapes
    match (shapes.map List.length).min? with
    | none => .error .valueError
    | some m =>
      let repl := (shapes.map (fun s => s.take m)).map
        (fun s => s.map (fun z => if z = 0 then (-1 : Int) else z))
      let r0 := repl.headD []
      .ok ((List.range m).map (fun j =>
        if (repl.map (fun row =>
            ((row.getD j 1 : Int) : ℚ) / ((r0.getD j 1 : Int) : ℚ))).prod = 1
        then some (r0.getD j 0) else none))

/-! ## `to_disk_as_hdf5` (lines 1025-1062)

The h5 file is a tree of groups and datasets; a dataset is modelled by its
batch axis only: a list of slots, `none` meaning never written.  A container
leaf destined for disk is its row list (`to_numpy`, batch axis first).  Note
`max_batch_size` is an ordinary python local: once inferred from a leaf it
*persists* for the remaining (sorted) siblings and is also passed down to
later subgroups. -/

inductive H5 (ρ : Type) : Type where
  | group : List (String × H5 ρ) → H5 ρ
  | dataset : List (Option ρ) → H5 ρ

/-- `ds[start : start + len(rows)] = rows` on the batch axis. -/
def writeSlice : List (Option ρ) → Nat → List ρ → List (Option ρ)
  | ds, _, [] => ds
  | [], _, _ :: _ => []
  | _ :: ds, 0, r :: rs => some r :: writeSlice ds 0 rs
  | d :: ds, s + 1, rs => d :: writeSlice ds s rs

/-- The dataset-writing tail of the `to_disk_as_hdf5` loop body for one leaf:
infer `max_batch_size` when falsy (`if not max_batch_size:` — `None` or `0`),
create the dataset when absent with the inferred first dimension, then
slice-assign `value[0:amount]` into `[si : si + amount]` with python slice
semantics (h5py raises when selection and value lengths disagree). -/
def writeLeafDS (existing : Option (H5 ρ)) (si : Nat) (mbs : Option Nat)
    (rows : List ρ) : Except PyErr (List (Option ρ) × Nat) :=
  let batch := rows.length
  let mbsEff : Nat :=
    match mbs with
    | none => si + batch
    | some 0 => si + batch
    | some m => m
  let dsRes : Except PyErr (List (Option ρ)) :=
    match existing with
    | some (.group _) => .error .typeError
    | some (.dataset ds) => .ok ds
    | none => .ok (List.replicate mbsEff none)
  match dsRes with
  | .error e => .error e
  | .ok ds =>
    let spaceLeft : Int := (mbsEff : Int) - (si : Int)
    let amount : Int := min (batch : Int) spaceLeft
    let cropped := if 0 ≤ amount then rows.take amount.toNat
      else rows.take ((batch : Int) + amount).toNat
    let selStart := min si ds.length
    let selStop := (min ((si : Int) + amount) (ds.length : Int)).toNat
    if cropped.length = selStop - selStart
    then .ok (writeSlice ds selStart cropped, mbsEff)
    else .error .valueError

def toDiskEntries : List (String × CNode (List ρ)) → H5 ρ → Nat → Option Nat →
    Except PyErr (H5 ρ × Option Nat)
  | [], h, _, mbs => .ok (h, mbs)
  | (k, v) :: l, h, si, mbs =>
    match h with
    | .dataset _ => .error .typeError
    | .group g =>
      match v with
      | .sub (.mk es) => do
        let sub := (lookupKey k g).getD (.group [])
        let (sub', _) ← toDiskEntries (sortEntries es) sub si mbs
        toDiskEntries l (.group (setEntriesKey k sub' g)) si mbs
      | .leaf rows => do
        let (ds', mbsEff) ← writeLeafDS (lookupKey k g) si mbs rows
        toDiskEntries l (.group (setEntriesKey k (.dataset ds') g)) si (some mbsEff)
termination_by l _ _ _ => sizeOf l
decreasing_by
  all_goals simp [sizeOf_sortEntries]
  all_goals omega

def Container.to_disk_as_hdf5 (c : Container (List ρ)) (h : H5 ρ) (si : Nat)
    (mbs : Option Nat) : Except PyErr (H5 ρ × Option Nat) :=
  toDiskEntries (sortEntries c.entries) h si mbs

mutual
/-- No branch below this node is an empty container (`map` silently drops
empty sub-containers via its `if ret:` truthiness check). -/
def nodeNoEmpty : CNode α → Bool
  | .leaf _ => true
  | .sub (.mk es) => (!es.isEmpty) && entriesNoEmpty es

def entriesNoEmpty : List (String × CNode α) → Bool
  | [] => true
  | e :: l => nodeNoEmpty e.2 && entriesNoEmpty l
end


/-- Modelled from the spec: the selection policy at one leaf, reached at the
accumulated chain `r.2.1`: with `key_chains = none` the function is applied;
otherwise it is applied iff `(chain ∈ key_chains) == to_apply`; a skipped
leaf is omitted when `prune_unapplied` and copied through otherwise. -/
def selectionSpec (f : α → String → α) (kcs : Option (List String)) (ta pr : Bool) :
    String × String × α → Option (String × String × α) :=
  fun r =>
    match kcs with
    | none => some (r.1, r.2.1, f r.2.2 r.2.1)
    | some kcl =>
      if decide (r.2.1 ∈ kcl) = ta then some (r.1, r.2.1, f r.2.2 r.2.1)
      else if pr then none else some r


/-! ## Example containers used in the claim theorems -/

/-- The spec's concrete tree `{"a": {"x": [1,2,3]}, "b": [4,5]}`. -/
def exFlat : Container (List Nat) :=
  .mk [("a", .sub (.mk [("x", .leaf [1, 2, 3])])), ("b", .leaf [4, 5])]

/-- A canonical container with an empty sub-container child. -/
def exMapEmpty : Container Nat := .mk [("a", .sub (.mk [])), ("b", .leaf 1)]

/-- `{"a": {"x": 7}}`: one nested leaf. -/
def exIterNest : Container Nat := .mk [("a", .sub (.mk [("x", .leaf 7)]))]

/-- `{"a": 5}`: a single leaf, for indexing through a leaf. -/
def exHasLeaf : Container Nat := .mk [("a", .leaf 5)]

/-- A reduction like `lambda x: sum(x)`: sums leaf values, raising (as python
`sum` does on dicts) when any element is a container. -/
def sumRed (l : List (CNode Nat)) : Except PyErr Nat :=
  if l.all (fun t => match t with | .leaf _ => true | .sub _ => false)
  then .ok (l.map (fun t => match t with | .leaf v => v | .sub _ => 0)).sum
  else .error .typeError

def exRedA : CNode Nat := .sub (.mk [("a", .leaf 1)])

def exRedB : CNode Nat := .sub (.mk [("a", .leaf 2), ("b", .leaf 3)])

def exRedAB : CNode Nat := .sub (.mk [("a", .leaf 1), ("b", .leaf 2)])

/-- Three list leaves of lengths 4, 2 and 8. -/
def exShapeDis : Container PyVal :=
  .mk [("a", .leaf (.listv [.intv 1, .intv 1, .intv 1, .intv 1])),
       ("b", .leaf (.listv [.intv 1, .intv 1])),
       ("c", .leaf (.listv (List.replicate 8 (.intv 1))))]

/-- Two array leaves of shape `[4, 3]`. -/
def exShapeAgree : Container PyVal :=
  .mk [("a", .leaf (.arrv [4, 3])), ("b", .leaf (.arrv [4, 3]))]

/-- Array leaves `[4,3]`, `[4,3]`, `[5,3]`. -/
def exShapeMixed : Container PyVal :=
  .mk [("a", .leaf (.arrv [4, 3])), ("b", .leaf (.arrv [4, 3])),
       ("c", .leaf (.arrv [5, 3]))]

/-- `{"a": 1-row array, "b": 2-row array}` destined for the binary store. -/
def exDisk : Container (List Nat) := .mk [("a", .leaf [10]), ("b", .leaf [20, 30])]


/-! ## Order and canonical-form lemmas -/

theorem charsLt_irrefl : ∀ a : List Char, charsLt a a = false
  | [] => rfl
  | c :: cs => by simp [charsLt, charsLt_irrefl cs]

theorem charsLt_asymm : ∀ (a b : List Char),
    charsLt a b = true → charsLt b a = false := by
  intro a
  induction a with
  | nil =>
    intro b h
    cases b with
    | nil => simp [charsLt] at h
    | cons y bs => simp [charsLt]
  | cons x as ih =>
    intro b h
    cases b with
    | nil => simp [charsLt] at h
    | cons y bs =>
      simp only [charsLt, Bool.or_eq_true, Bool.and_eq_true, decide_eq_true_eq] at h ⊢
      rcases h with h | ⟨he, hc⟩
      · have h1 : ¬ y < x := lt_asymm h
        have h2 : y ≠ x := LT.lt.ne' h
        simp [h1, h2]
      · subst he
        simp [lt_irrefl, ih bs hc]

theorem charsLt_trans : ∀ (a b c : List Char), charsLt a b = true →
    charsLt b c = true → charsLt a c = true := by
  intro a
  induction a with
  | nil =>
    intro b c hab hbc
    cases c with
    | nil =>
      cases b with
      | nil => simp [charsLt] at hab
      | cons y bs => simp [charsLt] at hbc
    | cons z cs => simp [charsLt]
  | cons x as ih =>
    intro b c hab hbc
    cases b with
    | nil => simp [charsLt] at hab
    | cons y bs =>
      cases c with
      | nil => simp [charsLt] at hbc
      | cons z cs =>
        simp only [charsLt, Bool.or_eq_true, Bool.and_eq_true,
          decide_eq_true_eq] at hab hbc ⊢
        rcases hab with h1 | ⟨e1, r1⟩ <;> rcases hbc with h2 | ⟨e2, r2⟩
        · exact Or.inl (lt_trans h1 h2)
        · exact Or.inl (e2 ▸ h1)
        · exact Or.inl (e1 ▸ h2)
        · exact Or.inr ⟨e1.trans e2, ih bs cs r1 r2⟩

theorem strLt_asymm {a b : String} (h : strLt a b = true) : strLt b a = false :=
  charsLt_asymm a.data b.data h

theorem strLt_trans {a b c : String} (h1 : strLt a b = true)
    (h2 : strLt b c = true) : strLt a c = true :=
  charsLt_trans a.data b.data c.data h1 h2

theorem keysStrictSorted_tail {a : String} {ks : List String}
    (h : keysStrictSorted (a :: ks) = true) : keysStrictSorted ks = true := by
  cases ks with
  | nil => rfl
  | cons b l =>
    simp only [keysStrictSorted, Bool.and_eq_true] at h
    exact h.2

theorem keysStrictSorted_head {a b : String} {ks : List String}
    (h : keysStrictSorted (a :: b :: ks) = true) : strLt a b = true := by
  simp only [keysStrictSorted, Bool.and_eq_true] at h
  exact h.1

/-- On an already key-sorted list, python `sorted` is the identity. -/
theorem sortEntries_eq_self : ∀ {l : List (String × β)},
    keysStrictSorted (l.map Prod.fst) = true → sortEntries l = l
  | [], _ => rfl
  | [p], _ => by simp [sortEntries, insortEntry]
  | p :: q :: l, h => by
    have hpq : strLt p.1 q.1 = true := keysStrictSorted_head h
    have h2 : keysStrictSorted (q.1 :: (l.map Prod.fst)) = true := by
      have := keysStrictSorted_tail (a := p.1) (by simpa using h)
      simpa using this
    show insortEntry p (sortEntries (q :: l)) = p :: q :: l
    rw [sortEntries_eq_self (by simpa using h2)]
    simp [insortEntry, strLt_asymm hpq]

theorem entriesWF_tail {e : String × CNode α} {l : List (String × CNode α)}
    (h : entriesWF (e :: l) = true) : entriesWF l = true := by
  rcases e with ⟨k, v⟩
  cases v with
  | leaf x => simpa [entriesWF] using h
  | sub c =>
    rcases c with ⟨es⟩
    simp only [entriesWF, Bool.and_eq_true] at h
    exact h.2

theorem entriesWF_sub {k : String} {es l : List (String × CNode α)}
    (h : entriesWF ((k, .sub (.mk es)) :: l) = true) :
    keysStrictSorted (es.map Prod.fst) = true ∧ entriesWF es = true := by
  simp only [entriesWF, Bool.and_eq_true] at h
  exact ⟨h.1.1, h.1.2⟩

/-- On an already canonical entry list, the constructor body is the identity. -/
theorem ctorEntries_eq_self : ∀ {l : List (String × CNode α)},
    entriesWF l = true → ctorEntries l = l := by
  intro l
  induction l using ctorEntries.induct with
  | case1 => intro _; simp [ctorEntries]
  | case2 k v l ih =>
    intro h
    simp only [ctorEntries]
    rw [ih (entriesWF_tail h)]
  | case3 k es l ih1 ih2 =>
    intro h
    obtain ⟨hks, hes⟩ := entriesWF_sub h
    rw [sortEntries_eq_self hks] at ih1
    simp only [ctorEntries]
    rw [sortEntries_eq_self hks, ih1 hes, ih2 (entriesWF_tail h)]

/-- `Container(c)` is the identity on canonical containers. -/
theorem containerCtor_eq_self {c : Container α} (h : c.WF = true) :
    containerCtor c = c := by
  rcases c with ⟨es⟩
  simp only [Container.WF, Container.entries, Bool.and_eq_true] at h
  rcases h with ⟨hks, hwf⟩
  show Container.mk (ctorEntries (sortEntries es)) = Container.mk es
  rw [sortEntries_eq_self hks, ctorEntries_eq_self hwf]

/-! ## Flat-list lemmas (claims about `to_flat_list` / `from_flat_list`) -/

theorem entriesLeafCount_insort (p : String × CNode α) :
    ∀ l, entriesLeafCount (insortEntry p l) = entriesLeafCount (p :: l) := by
  intro l
  induction l with
  | nil => rfl
  | cons q l ih =>
    simp only [insortEntry]
    split
    · simp only [entriesLeafCount, ih]
      omega
    · rfl

theorem entriesLeafCount_sort :
    ∀ l : List (String × CNode α), entriesLeafCount (sortEntries l) = entriesLeafCount l := by
  intro l
  induction l with
  | nil => rfl
  | cons p l ih =>
    simp only [sortEntries, entriesLeafCount_insort, entriesLeafCount, ih]

/-- `from_flat_list` pops exactly one value per leaf: on a long-enough list it
succeeds and leaves exactly the tail beyond the leaf count. -/
theorem fflEntries_drop : ∀ (l : List (String × CNode α)) (fl : List β),
    entriesLeafCount l ≤ fl.length →
    ∃ nl, fflEntries l fl = .ok (nl, fl.drop (entriesLeafCount l)) := by
  intro l
  induction l using iterEntries.induct with
  | case1 =>
    intro fl _
    exact ⟨[], by simp [fflEntries, entriesLeafCount]⟩
  | case2 k v l ih =>
    intro fl hlen
    have hc : entriesLeafCount ((k, CNode.leaf v) :: l) = 1 + entriesLeafCount l := by
      simp [entriesLeafCount, nodeLeafCount]
    rw [hc] at hlen ⊢
    cases fl with
    | nil => simp at hlen
    | cons x fl' =>
      simp only [List.length_cons] at hlen
      obtain ⟨nl, hnl⟩ := ih fl' (by omega)
      refine ⟨(k, .leaf x) :: nl, ?_⟩
      simp only [fflEntries, hnl, Except.bind, bind]
      rw [show 1 + entriesLeafCount l = entriesLeafCount l + 1 from Nat.add_comm 1 _,
        List.drop_succ_cons]
  | case3 k es l ih1 ih2 =>
    intro fl hlen
    have hcnt : entriesLeafCount (sortEntries es) = entriesLeafCount es :=
      entriesLeafCount_sort es
    have hc : entriesLeafCount ((k, CNode.sub (Container.mk es)) :: l) =
        entriesLeafCount es + entriesLeafCount l := by
      simp [entriesLeafCount, nodeLeafCount]
    rw [hc] at hlen ⊢
    obtain ⟨nes, hnes⟩ := ih1 fl (by omega)
    obtain ⟨nl, hnl⟩ := ih2 (fl.drop (entriesLeafCount (sortEntries es)))
      (by rw [hcnt, List.length_drop]; omega)
    refine ⟨(k, .sub (containerCtor (.mk nes))) :: nl, ?_⟩
    simp only [fflEntries, hnes, hnl, Except.bind, bind]
    rw [List.drop_drop, hcnt]

/-- Rehydrating a canonical entry list from its own iterated values restores
it exactly, consuming exactly its leaves. -/
theorem fflEntries_iter : ∀ (l : List (String × CNode α)), entriesWF l = true →
    ∀ rest : List α,
      fflEntries l ((iterEntries l).map Prod.snd ++ rest) = .ok (l, rest) := by
  intro l
  induction l using iterEntries.induct with
  | case1 =>
    intro _ rest
    simp [fflEntries, iterEntries]
  | case2 k v l ih =>
    intro hwf rest
    have hl := entriesWF_tail hwf
    simp only [iterEntries, List.map_cons, List.cons_append]
    simp only [fflEntries, ih hl rest, Except.bind, bind]
  | case3 k es l ih1 ih2 =>
    intro hwf rest
    obtain ⟨hks, hes⟩ := entriesWF_sub hwf
    have hl := entriesWF_tail hwf
    have hsort : sortEntries es = es := sortEntries_eq_self hks
    have hctor : containerCtor (.mk es) = .mk es := by
      apply containerCtor_eq_self
      simp [Container.WF, Container.entries, hks, hes]
    rw [hsort] at ih1
    simp only [iterEntries, hsort, List.map_append, List.append_assoc]
    simp only [fflEntries, hsort,
      ih1 hes ((iterEntries l).map Prod.snd ++ rest), Except.bind, bind]
    simp only [ih2 hl rest, hctor]

/-! ## Key-chain walk lemmas -/

/-- The `try/except KeyError` walk of `has_key_chain`, classified: it raises
`TypeError` exactly when a leaf is met mid-path, and otherwise reports
whether pure child-lookup resolution succeeds. -/
theorem hkcWalk_classified : ∀ (segs : List String) (n : CNode α),
    hkcWalk segs n = (if hitsLeafMidPath n segs then .error .typeError
      else .ok (resolveNode n segs).isSome) := by
  intro segs
  induction segs with
  | nil =>
    intro n
    simp [hkcWalk, hitsLeafMidPath, resolveNode]
  | cons k l ih =>
    intro n
    cases n with
    | leaf v => simp [hkcWalk, hitsLeafMidPath]
    | sub c =>
      rcases c with ⟨es⟩
      simp only [hkcWalk, hitsLeafMidPath, resolveNode]
      cases lookupKey k es with
      | none => simp
      | some v => simpa using ih v

theorem lookupKey_setEntriesKey (k : String) (n : β) :
    ∀ l : List (String × β), lookupKey k (setEntriesKey k n l) = some n := by
  intro l
  induction l with
  | nil => simp [setEntriesKey, lookupKey]
  | cons e l ih =>
    rcases e with ⟨k', v⟩
    simp only [setEntriesKey]
    by_cases h : k' = k
    · simp [h, lookupKey]
    · simp [h, lookupKey, ih]

/-- After `set_at_key_chain`, the written value is found by resolving the
same segments by child lookup. -/
theorem setKCEntries_resolve : ∀ (segs : List String)
    (es es' : List (String × CNode α)) (v : CNode α),
    setKCEntries es segs v = .ok es' →
    resolveNode (.sub (.mk es')) segs = some v := by
  intro segs
  induction segs with
  | nil =>
    intro es es' v h
    simp [setKCEntries] at h
  | cons k ks ih =>
    intro es es' v h
    cases ks with
    | nil =>
      simp only [setKCEntries] at h
      cases h
      simp [resolveNode, lookupKey_setEntriesKey]
    | cons k' ks' =>
      simp only [setKCEntries] at h
      split at h
      next fs heq =>
        cases hrec : setKCEntries fs (k' :: ks') v with
        | error e => simp [hrec, Except.bind, bind] at h
        | ok nfs =>
          simp only [hrec, Except.bind, bind] at h
          cases h
          simp only [resolveNode, lookupKey_setEntriesKey]
          exact ih fs nfs v hrec
      next => cases h
      next heq =>
        cases hrec : setKCEntries ([] : List (String × CNode α)) (k' :: ks') v with
        | error e => simp [hrec, Except.bind, bind] at h
        | ok nfs =>
          simp only [hrec, Except.bind, bind] at h
          cases h
          simp only [resolveNode, lookupKey_setEntriesKey]
          exact ih [] nfs v hrec

/-! ## Iterator versus full key-chains -/

/-- On canonical entries, `to_iterator`'s output is exactly the depth-first
leaf sequence, each leaf tagged with its *immediate* key (the full chain of
`leafRecs` projected away). -/
theorem iterEntries_leafRecs : ∀ (l : List (String × CNode α)),
    entriesWF l = true → ∀ pre : String,
    iterEntries l = (leafRecs l pre).map (fun r => (r.1, r.2.2)) := by
  intro l
  induction l using iterEntries.induct with
  | case1 =>
    intro _ pre
    simp [iterEntries, leafRecs]
  | case2 k v l ih =>
    intro hwf pre
    simp only [iterEntries, leafRecs, List.map_cons]
    rw [ih (entriesWF_tail hwf) pre]
  | case3 k es l ih1 ih2 =>
    intro hwf pre
    obtain ⟨hks, hes⟩ := entriesWF_sub hwf
    have hsort : sortEntries es = es := sortEntries_eq_self hks
    simp only [iterEntries, leafRecs, List.map_append, hsort]
    rw [hsort] at ih1
    rw [ih1 hes (chainJoin pre k), ih2 (entriesWF_tail hwf) pre]

/-! ## Dataset slice-assignment lemmas -/

theorem writeSlice_length : ∀ (ds : List (Option ρ)) (s : Nat) (rs : List ρ),
    (writeSlice ds s rs).length = ds.length := by
  intro ds
  induction ds with
  | nil => intro s rs; cases rs <;> simp [writeSlice]
  | cons d ds ih =>
    intro s rs
    cases rs with
    | nil => simp [writeSlice]
    | cons r rs' =>
      cases s with
      | zero => simp [writeSlice, ih]
      | succ s' => simp [writeSlice, ih]

theorem writeSlice_getD : ∀ (ds : List (Option ρ)) (s : Nat) (rs : List ρ)
    (i : Nat), i < ds.length →
    (writeSlice ds s rs).getD i none =
      (if s ≤ i ∧ i < s + rs.length then rs[i - s]? else ds.getD i none) := by
  intro ds
  induction ds with
  | nil => intro s rs i h; simp at h
  | cons d ds ih =>
    intro s rs i h
    cases rs with
    | nil =>
      have hneg : ¬ (s ≤ i ∧ i < s) := by omega
      simp [writeSlice, hneg]
    | cons r rs' =>
      cases s with
      | zero =>
        cases i with
        | zero => simp [writeSlice]
        | succ j =>
          simp only [List.length_cons] at h
          have hj : j < ds.length := by omega
          simp only [writeSlice, List.getD_cons_succ]
          rw [ih 0 rs' j hj]
          by_cases hw : j < rs'.length
          · rw [if_pos (by omega : 0 ≤ j ∧ j < 0 + rs'.length),
              if_pos (show 0 ≤ j + 1 ∧ j + 1 < 0 + (r :: rs').length by simp; omega)]
            simp
          · rw [if_neg (by omega : ¬ (0 ≤ j ∧ j < 0 + rs'.length)),
              if_neg (show ¬ (0 ≤ j + 1 ∧ j + 1 < 0 + (r :: rs').length) by simp; omega)]
      | succ s' =>
        cases i with
        | zero =>
          have hneg : ¬ (s' + 1 ≤ 0 ∧ (0 : Nat) < s' + 1 + (r :: rs').length) := by omega
          simp [writeSlice, hneg]
        | succ j =>
          simp only [List.length_cons] at h
          have hj : j < ds.length := by omega
          simp only [writeSlice, List.getD_cons_succ]
          rw [ih s' (r :: rs') j hj]
          by_cases hw : s' ≤ j ∧ j < s' + (r :: rs').length
          · rw [if_pos hw,
              if_pos (show s' + 1 ≤ j + 1 ∧ j + 1 < s' + 1 + (r :: rs').length by
                simp at hw ⊢; omega)]
            have hidx : j + 1 - (s' + 1) = j - s' := by omega
            rw [hidx]
          · rw [if_neg hw,
              if_neg (show ¬ (s' + 1 ≤ j + 1 ∧ j + 1 < s' + 1 + (r :: rs').length) by
                simp at hw ⊢; omega)]

/-! ## `map` with the identity function -/

theorem entriesNoEmpty_tail {e : String × CNode α} {l : List (String × CNode α)}
    (h : entriesNoEmpty (e :: l) = true) : entriesNoEmpty l = true := by
  simp only [entriesNoEmpty, Bool.and_eq_true] at h
  exact h.2

theorem entriesNoEmpty_sub {k : String} {es l : List (String × CNode α)}
    (h : entriesNoEmpty ((k, .sub (.mk es)) :: l) = true) :
    es.isEmpty = false ∧ entriesNoEmpty es = true := by
  simp only [entriesNoEmpty, Bool.and_eq_true, nodeNoEmpty, Bool.not_eq_true'] at h
  exact ⟨h.1.1, h.1.2⟩

theorem mapEntries_id : ∀ (l : List (String × CNode α)),
    entriesWF l = true → entriesNoEmpty l = true → ∀ kc : String,
    mapEntries (fun v _ => v) none true false l kc = l := by
  intro l
  induction l using iterEntries.induct with
  | case1 =>
    intro _ _ kc
    simp [mapEntries]
  | case2 k v l ih =>
    intro hwf hne kc
    simp only [mapEntries]
    rw [ih (entriesWF_tail hwf) (entriesNoEmpty_tail hne) kc]
  | case3 k es l ih1 ih2 =>
    intro hwf hne kc
    obtain ⟨hks, hes⟩ := entriesWF_sub hwf
    obtain ⟨hemp, hnes⟩ := entriesNoEmpty_sub hne
    have hsort : sortEntries es = es := sortEntries_eq_self hks
    rw [hsort] at ih1
    simp only [mapEntries, hsort]
    rw [ih1 hes hnes]
    have hctor : containerCtor (.mk es) = .mk es := by
      apply containerCtor_eq_self
      simp [Container.WF, Container.entries, hks, hes]
    rw [hctor]
    simp only [Container.entries, hemp]
    rw [ih2 (entriesWF_tail hwf) (entriesNoEmpty_tail hne) kc]
    simp

/-! ## `map` selection policy -/

theorem keysStrictSorted_iff_pairwise : ∀ l : List String,
    keysStrictSorted l = true ↔ l.Pairwise (fun a b => strLt a b = true) := by
  intro l
  induction l with
  | nil => simp [keysStrictSorted]
  | cons a l ih =>
    cases l with
    | nil => simp [keysStrictSorted]
    | cons b m =>
      constructor
      · intro h
        have h1 : strLt a b = true := keysStrictSorted_head h
        have h2 := (ih.mp (keysStrictSorted_tail h))
        refine List.Pairwise.cons ?_ h2
        intro x hx
        rcases List.mem_cons.mp hx with rfl | hx
        · exact h1
        · exact strLt_trans h1 (List.rel_of_pairwise_cons h2 hx)
      · intro h
        rcases List.pairwise_cons.mp h with ⟨hall, htail⟩
        simp only [keysStrictSorted, Bool.and_eq_true]
        exact ⟨hall b (by simp), ih.mpr htail⟩

theorem keysStrictSorted_sublist {t s : List String} (hsub : t.Sublist s)
    (hs : keysStrictSorted s = true) : keysStrictSorted t = true :=
  (keysStrictSorted_iff_pairwise t).mpr
    (((keysStrictSorted_iff_pairwise s).mp hs).sublist hsub)

theorem skipIff (m : Prop) [Decidable m] (ta : Bool) :
    ((m ∧ ¬ ta = true) ∨ (¬ m ∧ ta = true)) ↔ ¬ (decide m = ta) := by
  cases ta <;> by_cases h : m <;> simp [h]

/-- The heart of the selection-policy claim: on canonical entries, `map`
touches exactly the leaves the spec's selection policy designates, keeps the
key order a sublist of the input's, and preserves canonical form. -/
theorem mapEntries_spec : ∀ (l : List (String × CNode α)) (f : α → String → α)
    (kcs : Option (List String)) (ta pr : Bool),
    entriesWF l = true → keysStrictSorted (l.map Prod.fst) = true →
    ∀ kc : String,
    ((mapEntries f kcs ta pr l kc).map Prod.fst).Sublist (l.map Prod.fst) ∧
    entriesWF (mapEntries f kcs ta pr l kc) = true ∧
    leafRecs (mapEntries f kcs ta pr l kc) kc =
      (leafRecs l kc).filterMap (selectionSpec f kcs ta pr) := by
  intro l f kcs ta pr
  induction l using iterEntries.induct with
  | case1 =>
    intro _ _ kc
    refine ⟨?_, ?_, ?_⟩ <;> simp [mapEntries, leafRecs, entriesWF]
  | case2 k v l ih =>
    intro hwf hks kc
    have htailks : keysStrictSorted (l.map Prod.fst) = true :=
      keysStrictSorted_sublist (by simp) hks
    obtain ⟨ihsub, ihwf, ihrec⟩ := ih (entriesWF_tail hwf) htailks kc
    cases kcs with
    | none =>
      simp only [mapEntries]
      refine ⟨by simpa using List.Sublist.cons₂ k ihsub, ?_, ?_⟩
      · simpa [entriesWF] using ihwf
      · simp only [leafRecs, List.filterMap_cons, selectionSpec, ihrec]
    | some kcl =>
      simp only [mapEntries]
      by_cases happ : decide (chainJoin kc k ∈ kcl) = ta
      · rw [if_neg (fun hsk => ((skipIff _ _).mp hsk) happ)]
        refine ⟨by simpa using List.Sublist.cons₂ k ihsub, ?_, ?_⟩
        · simpa [entriesWF] using ihwf
        · simp only [leafRecs, List.filterMap_cons, selectionSpec, happ,
            eq_self_iff_true, if_true, ihrec]
      · rw [if_pos ((skipIff _ _).mpr happ)]
        cases pr with
        | true =>
          rw [if_pos rfl]
          refine ⟨by simpa using List.Sublist.cons k ihsub, ihwf, ?_⟩
          simp only [leafRecs, List.filterMap_cons, selectionSpec, happ,
            eq_self_iff_true, if_false, iff_false, ite_true, ite_false, ihrec]
        | false =>
          rw [if_neg (by simp)]
          refine ⟨by simpa using List.Sublist.cons₂ k ihsub, ?_, ?_⟩
          · simpa [entriesWF] using ihwf
          · simp only [leafRecs, List.filterMap_cons, selectionSpec, happ,
              eq_self_iff_true, if_false, iff_false, ite_true, ite_false, ihrec]
            simp [happ]
  | case3 k es l ih1 ih2 =>
    intro hwf hks kc
    obtain ⟨hkses, hes⟩ := entriesWF_sub hwf
    have hsort : sortEntries es = es := sortEntries_eq_self hkses
    have htailks : keysStrictSorted (l.map Prod.fst) = true :=
      keysStrictSorted_sublist (by simp) hks
    rw [hsort] at ih1
    obtain ⟨esub, ewf, erec⟩ := ih1 hes hkses (chainJoin kc k)
    obtain ⟨lsub, lwf, lrec⟩ := ih2 (entriesWF_tail hwf) htailks kc
    have houtks : keysStrictSorted
        ((mapEntries f kcs ta pr es (chainJoin kc k)).map Prod.fst) = true :=
      keysStrictSorted_sublist esub hkses
    have hctor : containerCtor (.mk (mapEntries f kcs ta pr es (chainJoin kc k)))
        = .mk (mapEntries f kcs ta pr es (chainJoin kc k)) := by
      apply containerCtor_eq_self
      simp [Container.WF, Container.entries, houtks, ewf]
    simp only [mapEntries, hsort, hctor, Container.entries]
    by_cases hemp : (mapEntries f kcs ta pr es (chainJoin kc k)).isEmpty = true
    · have hnil : mapEntries f kcs ta pr es (chainJoin kc k) = [] := by
        simpa [List.isEmpty_iff] using hemp
      rw [if_pos hemp]
      refine ⟨by simpa using List.Sublist.cons k lsub, lwf, ?_⟩
      have hzero : (leafRecs es (chainJoin kc k)).filterMap
          (selectionSpec f kcs ta pr) = [] := by
        rw [← erec, hnil]
        simp [leafRecs]
      simp only [leafRecs, List.filterMap_append, hzero, List.nil_append, lrec]
    · rw [if_neg hemp]
      refine ⟨by simpa using List.Sublist.cons₂ k lsub, ?_, ?_⟩
      · simp [entriesWF, houtks, ewf, lwf]
      · simp only [leafRecs, List.filterMap_append, lrec, erec]

/-! ## Multi-container reduce -/

theorem entriesWF_head {k : String} {v : CNode α} {l : List (String × CNode α)}
    (h : entriesWF ((k, v) :: l) = true) : CNode.WF v = true := by
  cases v with
  | leaf x => rfl
  | sub c =>
    rcases c with ⟨es⟩
    obtain ⟨h1, h2⟩ := entriesWF_sub h
    simp [CNode.WF, Container.WF, Container.entries, h1, h2]

theorem entriesWF_cons_of {k : String} {v : CNode α} {l : List (String × CNode α)}
    (hv : CNode.WF v = true) (hl : entriesWF l = true) :
    entriesWF ((k, v) :: l) = true := by
  cases v with
  | leaf x => simpa [entriesWF] using hl
  | sub c =>
    rcases c with ⟨es⟩
    simp only [CNode.WF, Container.WF, Container.entries, Bool.and_eq_true] at hv
    simp [entriesWF, hv.1, hv.2, hl]

/-- When the spec-side per-key child collection succeeds (every later tree is
a branch containing the key), the code's `[container[key] for container in
containers]` collects exactly the same children. -/
theorem mapM_lookup_agree (k : String) : ∀ (rest os : List (CNode α)),
    optionMapList (fun t => match t with
      | .sub (.mk fs) => lookupKey k fs
      | .leaf _ => none) rest = some os →
    exceptMapList (getKey k) rest = .ok os := by
  intro rest
  induction rest with
  | nil =>
    intro os h
    simp only [optionMapList, Option.some.injEq] at h
    simp [exceptMapList, ← h]
  | cons t rest ih =>
    intro os h
    cases t with
    | leaf x => simp [optionMapList] at h
    | sub c =>
      rcases c with ⟨fs⟩
      simp only [optionMapList] at h
      cases hlk : lookupKey k fs with
      | none => rw [hlk] at h; simp at h
      | some w =>
        rw [hlk] at h
        cases hrest : optionMapList (fun t => match t with
          | .sub (.mk fs) => lookupKey k fs
          | .leaf _ => none) rest with
        | none => rw [hrest] at h; simp at h
        | some os' =>
          rw [hrest] at h
          simp at h
          subst h
          simp [exceptMapList, getKey, hlk, ih os' hrest, bind, Except.bind]

mutual
/-- Refinement: whenever the spec-side exact-topology reduction succeeds on a
canonical first tree, the code's `Container.reduce` walk returns the same
result (and it is canonical). -/
theorem credNode_spec (f : List (CNode α) → Except PyErr α) :
    ∀ (v : CNode α) (rest : List (CNode α)) (r : CNode α),
    v.WF = true → specReduce f v rest = some r →
    credNode f v rest = .ok r ∧ r.WF = true
  | .leaf x, rest, r, _, hspec => by
    simp only [specReduce] at hspec
    split at hspec
    · cases hf : f (.leaf x :: rest) with
      | error e => rw [hf] at hspec; cases hspec
      | ok w =>
        rw [hf] at hspec
        simp only [Option.some.injEq] at hspec
        subst hspec
        simp [credNode, hf, CNode.WF]
    · cases hspec
  | .sub (.mk es), rest, r, hwf, hspec => by
    simp only [CNode.WF, Container.WF, Container.entries, Bool.and_eq_true] at hwf
    simp only [specReduce] at hspec
    split at hspec
    · cases hse : specReduceEntries f es rest with
      | none => rw [hse] at hspec; cases hspec
      | some nl =>
        rw [hse] at hspec
        simp only [Option.map_some', Option.some.injEq] at hspec
        subst hspec
        obtain ⟨hc, hwfnl, hkeys⟩ := credEntries_spec f es rest nl hwf.2 hse
        have hkssorted : keysStrictSorted (nl.map Prod.fst) = true := by
          rw [hkeys]; exact hwf.1
        have hctor : containerCtor (.mk nl) = .mk nl := by
          apply containerCtor_eq_self
          simp [Container.WF, Container.entries, hwfnl, hkssorted]
        constructor
        · simp [credNode, hc, bind, Except.bind, hctor]
        · simp [CNode.WF, Container.WF, Container.entries, hwfnl, hkssorted]
    · cases hspec

theorem credEntries_spec (f : List (CNode α) → Except PyErr α) :
    ∀ (es : List (String × CNode α)) (rest : List (CNode α))
      (nl : List (String × CNode α)),
    entriesWF es = true → specReduceEntries f es rest = some nl →
    credEntries f es rest = .ok nl ∧ entriesWF nl = true ∧
      nl.map Prod.fst = es.map Prod.fst
  | [], rest, nl, _, hspec => by
    simp only [specReduceEntries, Option.some.injEq] at hspec
    subst hspec
    simp [credEntries, entriesWF]
  | (k, v) :: es, rest, nl, hwf, hspec => by
    simp only [specReduceEntries] at hspec
    cases hos : optionMapList (fun t => match t with
        | CNode.sub (Container.mk fs) => lookupKey k fs
        | CNode.leaf _ => none) rest with
    | none => rw [hos] at hspec; simp at hspec
    | some os =>
      rw [hos] at hspec
      simp only [Option.pure_def, Option.bind_eq_bind, Option.some_bind] at hspec
      cases hsr : specReduce f v os with
      | none => rw [hsr] at hspec; simp at hspec
      | some rv =>
        rw [hsr] at hspec
        cases hre : specReduceEntries f es rest with
        | none => rw [hre] at hspec; simp at hspec
        | some nl' =>
          rw [hre] at hspec
          simp at hspec
          subst hspec
          obtain ⟨hcn, hrwf⟩ := credNode_spec f v os rv (entriesWF_head hwf) hsr
          obtain ⟨hce, hnlwf, hkeys⟩ :=
            credEntries_spec f es rest nl' (entriesWF_tail hwf) hre
          refine ⟨?_, entriesWF_cons_of hrwf hnlwf, by simp [hkeys]⟩
          simp [credEntries, mapM_lookup_agree k rest os hos, hcn, hce, bind,
            Except.bind]
end

/-! ## Shape-consensus helpers -/

theorem foldl_min_replicate {γ : Type} [LinearOrder γ] (x : γ) :
    ∀ n : Nat, List.foldl min x (List.replicate n x) = x := by
  intro n
  induction n with
  | zero => rfl
  | succ m ih => simpa [List.replicate_succ, min_self] using ih

theorem min?_replicate {γ : Type} [LinearOrder γ] {n : Nat} (hn : 0 < n) (x : γ) :
    (List.replicate n x).min? = some x := by
  cases n with
  | zero => omega
  | succ m => simp [List.replicate_succ, List.min?, foldl_min_replicate]

theorem map_zeroSubst_eq_self {s : List Int} (h0 : (0 : Int) ∉ s) :
    s.map (fun z => if z = 0 then (-1 : Int) else z) = s := by
  induction s with
  | nil => rfl
  | cons a s ih =>
    simp only [List.mem_cons, not_or] at h0
    simp only [List.map_cons, if_neg (Ne.symm h0.1), ih h0.2]

theorem range_map_getD_eq_map_some (s : List Int) :
    (List.range s.length).map (fun j => some (s.getD j 0)) = s.map some := by
  apply List.ext_getElem
  · simp
  · intro i h1 h2
    simp only [List.getElem_map, List.getElem_range]
    rw [List.getD_eq_getElem?_getD, List.getElem?_eq_getElem (by simpa using h2)]
    rfl

/-! ## Claim theorems -/

/-- C1 (confirmed): for every canonical container `T`,
`T.from_flat_list(T.to_flat_list())` returns a container equal to `T` (same
topology, same leaf values in the same depth-first positions), consuming the
whole list. -/
theorem C1_flatten_unflatten_roundtrip (c : Container α) (h : c.WF = true) :
    c.from_flat_list c.to_flat_list = .ok (c, []) := by
  rcases c with ⟨es⟩
  simp only [Container.WF, Container.entries, Bool.and_eq_true] at h
  simp only [Container.from_flat_list, Container.to_flat_list,
    Container.to_iterator, Container.entries, sortEntries_eq_self h.1]
  have hff := fflEntries_iter es h.2 []
  rw [List.append_nil] at hff
  rw [hff]
  simp only [Except.bind, bind]
  rw [containerCtor_eq_self (by simp [Container.WF, Container.entries, h.1, h.2])]

/-- C1 witness: the round trip on the spec's tree
`{"a": {"x": [1,2,3]}, "b": [4,5]}`. -/
theorem C1_witness : exFlat.WF = true ∧
    exFlat.from_flat_list exFlat.to_flat_list = .ok (exFlat, []) := by
  have hwf : exFlat.WF = true := by
    simp [exFlat, Container.WF, Container.entries, entriesWF, keysStrictSorted,
      strLt, charsLt]
  exact ⟨hwf, C1_flatten_unflatten_roundtrip exFlat hwf⟩

/-- C10 (confirmed): `from_flat_list` destructively consumes its argument
list: for any container with `n` leaves and any list of length at least `n`,
the caller's list afterwards is exactly its former tail beyond the first `n`
elements (one `pop(0)` per leaf, in depth-first order). -/
theorem C10_from_flat_list_consumes (c : Container α) (fl : List β)
    (h : c.leafCount ≤ fl.length) :
    ∃ r, c.from_flat_list fl = .ok (r, fl.drop c.leafCount) := by
  rcases c with ⟨es⟩
  simp only [Container.leafCount, Container.entries] at h ⊢
  obtain ⟨nl, hnl⟩ := fflEntries_drop (sortEntries es) fl
    (by rw [entriesLeafCount_sort]; exact h)
  refine ⟨containerCtor (.mk nl), ?_⟩
  simp only [Container.from_flat_list, Container.entries, hnl, Except.bind, bind]
  rw [entriesLeafCount_sort]

/-- C10 witness: rehydrating a 2-leaf tree from a 3-element list leaves
exactly the third element in the caller's list. -/
theorem C10_witness : exFlat.leafCount ≤ ([[9], [8], [7]] : List (List Nat)).length ∧
    ∃ r, exFlat.from_flat_list ([[9], [8], [7]] : List (List Nat)) =
      .ok (r, ([[9], [8], [7]] : List (List Nat)).drop exFlat.leafCount) := by
  have hlen : exFlat.leafCount ≤ ([[9], [8], [7]] : List (List Nat)).length := by
    simp [exFlat, Container.leafCount, Container.entries, entriesLeafCount,
      nodeLeafCount]
  exact ⟨hlen, C10_from_flat_list_consumes exFlat [[9], [8], [7]] hlen⟩

/-- C4 counterexample: mapping the identity over
`{"a": {}, "b": 1}` silently drops the empty sub-container `"a"`
(`if ret:` truthiness), so the result differs from the input. -/
theorem C4_counterexample :
    exMapEmpty.map (fun v _ => v) none true false "" = .mk [("b", .leaf 1)] ∧
    Container.mk [("b", CNode.leaf 1)] ≠ exMapEmpty := by
  constructor
  · simp [exMapEmpty, Container.map, Container.entries, mapEntries, containerCtor,
      ctorEntries, sortEntries, insortEntry, strLt, charsLt, chainJoin]
  · decide

/-- C4 (corrected): map identity holds for canonical containers none of
whose sub-containers is empty: `T.map(identity)` (no key-chain restriction)
returns `T` exactly. -/
theorem C4_amended_map_identity (c : Container α) (kc : String)
    (h1 : c.WF = true) (h2 : entriesNoEmpty c.entries = true) :
    c.map (fun v _ => v) none true false kc = c := by
  rcases c with ⟨es⟩
  simp only [Container.WF, Container.entries, Bool.and_eq_true] at h1
  simp only [Container.entries] at h2
  simp only [Container.map, Container.entries, sortEntries_eq_self h1.1]
  rw [mapEntries_id es h1.2 h2 kc]
  exact containerCtor_eq_self (by simp [Container.WF, Container.entries, h1.1, h1.2])

/-- C4 witness: map identity on the (empty-branch-free) tree
`{"a": {"x": [1,2,3]}, "b": [4,5]}`. -/
theorem C4_witness : (exFlat.WF = true ∧ entriesNoEmpty exFlat.entries = true) ∧
    exFlat.map (fun v _ => v) none true false "" = exFlat := by
  have hwf : exFlat.WF = true := by
    simp [exFlat, Container.WF, Container.entries, entriesWF, keysStrictSorted,
      strLt, charsLt]
  have hne : entriesNoEmpty exFlat.entries = true := by
    simp [exFlat, Container.entries, entriesNoEmpty, nodeNoEmpty]
  exact ⟨⟨hwf, hne⟩, C4_amended_map_identity exFlat "" hwf hne⟩

/-- C5 (confirmed): for a canonical container, the leaves of
`map(f, key_chains, to_apply, prune_unapplied)` are exactly the input's
depth-first leaves transformed by the spec's selection policy: with
`key_chains = none` every leaf is mapped; otherwise a leaf at accumulated
chain `p` is mapped iff `(p ∈ key_chains) == to_apply`, and a skipped leaf
is dropped when `prune_unapplied` and copied through unchanged otherwise. -/
theorem C5_map_selection_policy (c : Container α) (f : α → String → α)
    (kcs : Option (List String)) (ta pr : Bool) (pre : String)
    (h : c.WF = true) :
    leafRecs (c.map f kcs ta pr pre).entries pre =
      (leafRecs c.entries pre).filterMap (selectionSpec f kcs ta pr) := by
  rcases c with ⟨es⟩
  simp only [Container.WF, Container.entries, Bool.and_eq_true] at h
  obtain ⟨sub1, wf1, rec1⟩ := mapEntries_spec es f kcs ta pr h.2 h.1 pre
  simp only [Container.map, Container.entries, sortEntries_eq_self h.1]
  rw [containerCtor_eq_self
    (by simp [Container.WF, Container.entries, keysStrictSorted_sublist sub1 h.1, wf1])]
  exact rec1

/-- C5 witness: the selection policy instantiated on the spec's tree with
`key_chains = ["a/x"]`, `to_apply = true`, `prune_unapplied = true`. -/
theorem C5_witness : exFlat.WF = true ∧
    leafRecs (exFlat.map (fun v _ => v ++ [0]) (some ["a/x"]) true true "").entries ""
      = (leafRecs exFlat.entries "").filterMap
          (selectionSpec (fun v _ => v ++ [0]) (some ["a/x"]) true true) := by
  have hwf : exFlat.WF = true := by
    simp [exFlat, Container.WF, Container.entries, entriesWF, keysStrictSorted,
      strLt, charsLt]
  exact ⟨hwf, C5_map_selection_policy exFlat (fun v _ => v ++ [0])
    (some ["a/x"]) true true "" hwf⟩

/-- C6 counterexample: `to_iterator` on `{"a": {"x": 7}}` yields the pair
`("x", 7)` — the leaf's immediate key — whereas the full slash-delimited
key-chain of that leaf from the root is `"a/x"`. -/
theorem C6_counterexample : exIterNest.to_iterator = [("x", 7)] ∧
    ("x" : String) ≠ "a/x" := by
  constructor
  · simp [exIterNest, Container.to_iterator, Container.entries, iterEntries,
      sortEntries, insortEntry, strLt, charsLt]
  · decide

/-- C6 (corrected): `to_iterator` produces a finite depth-first sequence of
`(key, value)` pairs, one per leaf, in lexicographic order — but the first
component is the leaf's *immediate* key, not its full key-chain.  On the
spec's tree `{"a": {"x": [1,2,3]}, "b": [4,5]}`, `to_flat_list` still yields
`[[1,2,3], [4,5]]` with the `a/x` leaf before the `b` leaf. -/
theorem C6_amended_iterator (c : Container α) (h : c.WF = true) :
    c.to_iterator = (leafRecs c.entries "").map (fun r => (r.1, r.2.2)) ∧
    exFlat.to_flat_list = [[1, 2, 3], [4, 5]] ∧
    leafRecs exFlat.entries "" = [("x", "a/x", [1, 2, 3]), ("b", "b", [4, 5])] := by
  refine ⟨?_, ?_, ?_⟩
  · rcases c with ⟨es⟩
    simp only [Container.WF, Container.entries, Bool.and_eq_true] at h
    simp only [Container.to_iterator, Container.entries, sortEntries_eq_self h.1]
    exact iterEntries_leafRecs es h.2 ""
  · simp [exFlat, Container.to_flat_list, Container.to_iterator, Container.entries,
      iterEntries, sortEntries, insortEntry, strLt, charsLt]
  · simp [exFlat, Container.entries, leafRecs, chainJoin]

/-- C6 witness: the amended iterator description on the spec's tree. -/
theorem C6_witness : exFlat.WF = true ∧
    (exFlat.to_iterator = (leafRecs exFlat.entries "").map (fun r => (r.1, r.2.2)) ∧
     exFlat.to_flat_list = [[1, 2, 3], [4, 5]] ∧
     leafRecs exFlat.entries "" = [("x", "a/x", [1, 2, 3]), ("b", "b", [4, 5])]) := by
  have hwf : exFlat.WF = true := by
    simp [exFlat, Container.WF, Container.entries, entriesWF, keysStrictSorted,
      strLt, charsLt]
  exact ⟨hwf, C6_amended_iterator exFlat hwf⟩

/-- C7 counterexample: `has_key_chain "a/b"` on `{"a": 5}` raises
`TypeError` (indexing the leaf `5` is not caught — only `KeyError` is), so
it does not return false. -/
theorem C7_counterexample : exHasLeaf.has_key_chain "a/b" = .error .typeError ∧
    exHasLeaf.has_key_chain "a/b" ≠ .ok false := by
  have h : exHasLeaf.has_key_chain "a/b" = .error .typeError := by
    simp [exHasLeaf, Container.has_key_chain, hkcWalk, lookupKey, pySplit,
      pySplitChars]
  exact ⟨h, by rw [h]; exact fun hc => by cases hc⟩

/-- C7 (corrected): `has_key_chain` returns true exactly when every segment
resolves by child lookup from the root, returns false (without raising) when
a segment is missing from a branch, and raises `TypeError` when an
intermediate segment resolves to a leaf value rather than a branch. -/
theorem C7_amended_has_key_chain (c : Container α) (kc : String) :
    c.has_key_chain kc =
      (if hitsLeafMidPath (.sub c) (pySplit kc '/') then .error .typeError
       else .ok (resolveNode (.sub c) (pySplit kc '/')).isSome) :=
  hkcWalk_classified (pySplit kc '/') (.sub c)

/-- C8 (confirmed): `set_at_key_chain` walks the existing segments, creates
empty branches for missing intermediate segments, and assigns the value at
the final segment: whenever the call returns (state-passing models the
in-place mutation), resolving the same path in the result finds the value;
and concretely `set_at_key_chain("c/d", 9)` on `{}` yields
`{"c": {"d": 9}}`. -/
theorem C8_set_at_key_chain (c c' : Container α) (kc : String) (v : CNode α)
    (h : c.set_at_key_chain kc v = .ok c') :
    resolveNode (.sub c') (pySplit kc '/') = some v ∧
    (Container.mk ([] : List (String × CNode Nat))).set_at_key_chain "c/d"
      (.leaf 9) = .ok (.mk [("c", .sub (.mk [("d", .leaf 9)]))]) := by
  constructor
  · simp only [Container.set_at_key_chain] at h
    cases hset : setKCEntries c.entries (pySplit kc '/') v with
    | error e => rw [hset] at h; cases h
    | ok es' =>
      rw [hset] at h
      simp only [Except.map] at h
      cases h
      exact setKCEntries_resolve (pySplit kc '/') c.entries es' v hset
  · simp [Container.set_at_key_chain, Container.entries, setKCEntries,
      setEntriesKey, lookupKey, pySplit, pySplitChars, Except.map, Except.bind,
      bind]

/-- C8 witness: the `{}` scenario, with the written value found at `"c/d"`
in the result. -/
theorem C8_witness :
    (Container.mk ([] : List (String × CNode Nat))).set_at_key_chain "c/d"
      (.leaf 9) = .ok (.mk [("c", .sub (.mk [("d", .leaf 9)]))]) ∧
    resolveNode (.sub (.mk [("c", .sub (.mk [("d", CNode.leaf (9 : Nat))]))]))
      (pySplit "c/d" '/') = some (.leaf 9) := by
  have hset : (Container.mk ([] : List (String × CNode Nat))).set_at_key_chain
      "c/d" (.leaf 9) = .ok (.mk [("c", .sub (.mk [("d", .leaf 9)]))]) := by
    simp [Container.set_at_key_chain, Container.entries, setKCEntries,
      setEntriesKey, lookupKey, pySplit, pySplitChars, Except.map, Except.bind,
      bind]
  exact ⟨hset, (C8_set_at_key_chain _ _ "c/d" (.leaf 9) hset).1⟩

/-- C3 counterexample: reducing `{"a": 1}` with `{"a": 2, "b": 3}` — trees
whose topologies disagree because `"b"` exists only in the *later* tree —
does not fail at all: the extra key is silently ignored and the reduction
succeeds with `{"a": 3}`. -/
theorem C3_counterexample :
    containerReduce sumRed [exRedA, exRedB] = .ok (.sub (.mk [("a", .leaf 3)])) ∧
    lookupKey "b" [("a", CNode.leaf (1 : Nat))] = none ∧
    lookupKey "b" [("a", CNode.leaf (2 : Nat)), ("b", CNode.leaf 3)]
      = some (.leaf 3) := by
  refine ⟨?_, by simp [lookupKey], by simp [lookupKey]⟩
  simp [containerReduce, exRedA, exRedB, credNode, credEntries, getKey, lookupKey,
    sumRed, containerCtor, ctorEntries, sortEntries, insortEntry, strLt, charsLt,
    exceptMapList, Except.instMonad, Except.bind, Except.map, Except.pure]

/-- C3 (corrected): when the containers agree in topology (checked in both
directions by the spec-side `specReduce`) and the reduction succeeds,
`Container.reduce` applies the reduction to the list of corresponding leaf
values at every leaf position and returns that tree; a branch key present
only in a later container is silently ignored rather than raising, while a
key of the first container missing from a later one raises the key lookup
error, as in the concrete conjunct. -/
theorem C3_amended_reduce (f : List (CNode α) → Except PyErr α) (c0 : CNode α)
    (rest : List (CNode α)) (r : CNode α) (hwf : c0.WF = true)
    (hspec : specReduce f c0 rest = some r) :
    containerReduce f (c0 :: rest) = .ok r ∧
    containerReduce sumRed [exRedAB, exRedA] = .error .keyError := by
  constructor
  · simp only [containerReduce]
    exact (credNode_spec f c0 rest r hwf hspec).1
  · simp [containerReduce, exRedAB, exRedA, credNode, credEntries, getKey,
      lookupKey, sumRed, containerCtor, ctorEntries, sortEntries, insortEntry,
      strLt, charsLt, exceptMapList, Except.instMonad, Except.bind, Except.map,
      Except.pure]

/-- C3 witness: reducing two copies of `{"a": 1}` with the sum reduction
yields `{"a": 2}`. -/
theorem C3_witness : (exRedA.WF = true ∧
      specReduce sumRed exRedA [exRedA] = some (.sub (.mk [("a", .leaf 2)]))) ∧
    containerReduce sumRed [exRedA, exRedA] = .ok (.sub (.mk [("a", .leaf 2)])) := by
  have hwf : exRedA.WF = true := by
    simp [exRedA, CNode.WF, Container.WF, Container.entries, entriesWF,
      keysStrictSorted]
  have hspec : specReduce sumRed exRedA [exRedA]
      = some (.sub (.mk [("a", .leaf 2)])) := by
    simp [exRedA, specReduce, specReduceEntries, optionMapList, lookupKey, sumRed,
      Option.pure_def, Option.bind_eq_bind, Option.some_bind]
  exact ⟨⟨hwf, hspec⟩,
    (C3_amended_reduce sumRed exRedA [exRedA] (.sub (.mk [("a", .leaf 2)]))
      hwf hspec).1⟩

/-- C2 counterexample: three list leaves of lengths 4, 2 and 8 disagree on
the leading dimension, yet `shape` reports `[4]` (the float-ratio product
`4/4 * 2/4 * 8/4` happens to equal 1), not `[None]` as the claim requires
at a disagreeing position. -/
theorem C2_counterexample :
    exShapeDis.subShapes = [[4], [2], [8]] ∧
    exShapeDis.get_shape = .ok [some 4] ∧
    exShapeDis.get_shape ≠ .ok [none] := by
  have hs : exShapeDis.subShapes = [[4], [2], [8]] := by
    simp [exShapeDis, Container.subShapes, Container.map, Container.entries,
      mapEntries, containerCtor, ctorEntries, sortEntries, insortEntry, strLt,
      charsLt, Container.to_iterator, iterEntries, shapeLambda, pyIsArray,
      pyIsSeq, pyLen, pyTruthy, pyToIntList, List.replicate, chainJoin]
  have hg : exShapeDis.get_shape = .ok [some 4] := by
    simp only [Container.get_shape, hs]
    norm_num [exShapeDis, Container.entries, List.min?, List.range_succ]
  refine ⟨hs, hg, ?_⟩
  rw [hg]
  intro hc
  cases hc

/-- C2 (corrected): the `shape` property reports, when every collected leaf
shape equals the same `s` (no zero dimensions), exactly `s`; but 0 is not a
wildcard (an all-zero dimension is reported as `-1`, and a zero never
matches a nonzero dimension), and at disagreeing positions the result is
`None` only when the product-of-ratios test fails — the spec's
`[4,3]`/`[5,3]` example does yield `[None, 3]`, and an empty container has
shape `[0]`. -/
theorem C2_amended_shape_consensus (c : Container PyVal) (s : List Int) (n : Nat)
    (hne : c.entries.isEmpty = false) (hsub : c.subShapes = List.replicate n s)
    (hn : 0 < n) (h0 : (0 : Int) ∉ s) :
    c.get_shape = .ok (s.map some) ∧
    exShapeMixed.get_shape = .ok [none, some 3] ∧
    (Container.mk ([] : List (String × CNode PyVal))).get_shape = .ok [some 0] := by
  refine ⟨?_, ?_, ?_⟩
  · obtain ⟨m, rfl⟩ : ∃ m, n = m + 1 := ⟨n - 1, by omega⟩
    have h1 : ((List.replicate (m + 1) s).map List.length).min? = some s.length := by
      rw [List.map_replicate]
      exact min?_replicate hn s.length
    have hrepl : ((List.replicate (m + 1) s).map
          (fun t => t.take s.length)).map
          (fun t => t.map (fun z => if z = 0 then (-1 : Int) else z))
        = List.replicate (m + 1) s := by
      rw [List.map_replicate, List.take_length, List.map_replicate,
        map_zeroSubst_eq_self h0]
    simp only [Container.get_shape, hne, Bool.false_eq_true, if_false, hsub, h1,
      hrepl]
    have hhead : (List.replicate (m + 1) s).headD ([] : List Int) = s := by
      simp [List.replicate_succ]
    rw [hhead]
    have hpoint : ∀ j ∈ List.range s.length,
        (if ((List.replicate (m + 1) s).map (fun row =>
            ((row.getD j 1 : Int) : ℚ) / ((s.getD j 1 : Int) : ℚ))).prod = 1
         then some (s.getD j 0) else none) = some (s.getD j 0) := by
      intro j hj
      have hjlen : j < s.length := List.mem_range.mp hj
      have hget : s.getD j 1 = s[j] := List.getD_eq_getElem s 1 hjlen
      have hne0 : s.getD j 1 ≠ 0 := by
        rw [hget]
        intro hz
        exact h0 (hz ▸ List.getElem_mem hjlen)
      have hnz : ((s.getD j 1 : Int) : ℚ) ≠ 0 := Int.cast_ne_zero.mpr hne0
      rw [List.map_replicate, div_self hnz, List.prod_replicate, one_pow]
      simp
    rw [List.map_congr_left hpoint, range_map_getD_eq_map_some]
  · have hs : exShapeMixed.subShapes = [[4, 3], [4, 3], [5, 3]] := by
      simp [exShapeMixed, Container.subShapes, Container.map, Container.entries,
        mapEntries, containerCtor, ctorEntries, sortEntries, insortEntry, strLt,
        charsLt, Container.to_iterator, iterEntries, shapeLambda, pyIsArray,
        pyIsSeq, pyLen, pyTruthy, pyToIntList, pyArrShape, chainJoin]
    simp only [Container.get_shape, hs]
    norm_num [exShapeMixed, Container.entries, List.min?, List.range_succ]
  · simp [Container.get_shape, Container.entries]

/-- C2 witness: a tree whose leaves all have shape `[4, 3]` reports
`[4, 3]`. -/
theorem C2_witness :
    (exShapeAgree.entries.isEmpty = false ∧
     exShapeAgree.subShapes = List.replicate 2 [4, 3]) ∧
    exShapeAgree.get_shape = .ok ([(4 : Int), 3].map some) := by
  have h1 : exShapeAgree.entries.isEmpty = false := by
    simp [exShapeAgree, Container.entries]
  have h2 : exShapeAgree.subShapes = List.replicate 2 [4, 3] := by
    simp [exShapeAgree, Container.subShapes, Container.map, Container.entries,
      mapEntries, containerCtor, ctorEntries, sortEntries, insortEntry, strLt,
      charsLt, Container.to_iterator, iterEntries, shapeLambda, pyIsArray,
      pyIsSeq, pyLen, pyTruthy, pyToIntList, pyArrShape, chainJoin,
      List.replicate]
  exact ⟨⟨h1, h2⟩,
    (C2_amended_shape_consensus exShapeAgree [4, 3] 2 h1 h2 (by omega)
      (by decide)).1⟩

/-- C9 counterexample: writing `{"a": 1-row, "b": 2-row}` with
`starting_index = 0` and *unspecified* `max_batch_size` creates dataset
`"b"` with first dimension 1 — the `max_batch_size` inferred from the
earlier sibling `"a"` — and writes only 1 of its 2 rows, not a dataset of
first dimension `starting_index + this batch's size = 2` with both rows as
the claim requires. -/
theorem C9_counterexample :
    exDisk.to_disk_as_hdf5 (.group []) 0 none =
      .ok (.group [("a", .dataset [some 10]), ("b", .dataset [some 20])], some 1) ∧
    ([some (20 : Nat)] : List (Option Nat)).length ≠ 0 + [20, 30].length := by
  constructor
  · have hsort : sortEntries (exDisk.entries)
        = [("a", .leaf [10]), ("b", .leaf [20, 30])] := by
      simp [exDisk, Container.entries, sortEntries, insortEntry, strLt, charsLt]
    simp only [Container.to_disk_as_hdf5, hsort]
    simp [toDiskEntries, writeLeafDS, writeSlice, lookupKey, setEntriesKey,
      List.replicate, List.take, Except.instMonad, Except.bind, Except.map,
      Except.pure]
  · decide

/-- C9 (corrected): for one leaf written with *effective* parameters
`starting_index` and `max_batch_size` (the latter inferred as
`starting_index + this_batch_size` when the running value is `None` or `0`,
and then threaded on to subsequent leaves), exactly
`min(this_batch_size, max_batch_size - starting_index)` leading rows are
written into rows `starting_index, ...` of the dataset, the remaining rows
are silently dropped, everything else is unchanged, and a missing dataset
is created with first dimension the effective `max_batch_size`. -/
theorem C9_amended_hdf5_append {ρ : Type} (ds0 : Option (List (Option ρ)))
    (si : Nat) (mbs : Option Nat) (rows : List ρ) (M A : Nat)
    (base : List (Option ρ))
    (hM : M = (match mbs with
      | none => si + rows.length
      | some 0 => si + rows.length
      | some m => m))
    (hA : A = min rows.length (M - si))
    (hbase : base = ds0.getD (List.replicate M none))
    (hsi : si ≤ M) (hfit : si + A ≤ base.length) :
    ∃ out, writeLeafDS (ds0.map H5.dataset) si mbs rows = .ok (out, M) ∧
      out.length = base.length ∧
      ∀ i, i < base.length →
        out.getD i none =
          (if si ≤ i ∧ i < si + A then rows[i - si]? else base.getD i none) := by
  have hAle : A ≤ rows.length := by rw [hA]; omega
  have hsibase : si ≤ base.length := by omega
  have hamt : min ((rows.length : Int)) ((M : Int) - (si : Int)) = (A : Int) := by
    have hcast : (M : Int) - (si : Int) = ((M - si : Nat) : Int) := by omega
    rw [hcast, hA]
    exact_mod_cast rfl
  have hcomp : writeLeafDS (ds0.map H5.dataset) si mbs rows
      = .ok (writeSlice base si (rows.take A), M) := by
    cases ds0 with
    | none =>
      simp only [Option.map_none', Option.getD_none] at hbase ⊢
      simp only [writeLeafDS, ← hM, ← hbase, hamt]
      rw [if_pos (by positivity : (0 : Int) ≤ (A : Int))]
      have h1 : ((A : Int)).toNat = A := Int.toNat_natCast A
      have h2 : min si base.length = si := min_eq_left hsibase
      have h3 : ((min ((si : Int) + (A : Int)) ((base.length : Int))).toNat) -
          min si base.length = A := by
        rw [h2]
        have : (si : Int) + (A : Int) = ((si + A : Nat) : Int) := by push_cast; ring
        rw [this]
        have hmin : min ((si + A : Nat) : Int) ((base.length : Int))
            = ((si + A : Nat) : Int) := by
          apply min_eq_left
          exact_mod_cast hfit
        rw [hmin, Int.toNat_natCast]
        omega
      rw [h1, h3]
      rw [if_pos (by rw [List.length_take]; omega)]
      rw [h2]
    | some ds =>
      simp only [Option.map_some', Option.getD_some] at hbase ⊢
      subst hbase
      simp only [writeLeafDS, ← hM, hamt]
      rw [if_pos (by positivity : (0 : Int) ≤ (A : Int))]
      have h1 : ((A : Int)).toNat = A := Int.toNat_natCast A
      have h2 : min si base.length = si := min_eq_left hsibase
      have h3 : ((min ((si : Int) + (A : Int)) ((base.length : Int))).toNat) -
          min si base.length = A := by
        rw [h2]
        have : (si : Int) + (A : Int) = ((si + A : Nat) : Int) := by push_cast; ring
        rw [this]
        have hmin : min ((si + A : Nat) : Int) ((base.length : Int))
            = ((si + A : Nat) : Int) := by
          apply min_eq_left
          exact_mod_cast hfit
        rw [hmin, Int.toNat_natCast]
        omega
      rw [h1, h3]
      rw [if_pos (by rw [List.length_take]; omega)]
      rw [h2]
  refine ⟨writeSlice base si (rows.take A), hcomp, writeSlice_length base si _, ?_⟩
  intro i hi
  rw [writeSlice_getD base si (rows.take A) i hi]
  have htl : (rows.take A).length = A := by rw [List.length_take]; omega
  rw [htl]
  by_cases hw : si ≤ i ∧ i < si + A
  · rw [if_pos hw, if_pos hw]
    exact List.getElem?_take_of_lt (by omega)
  · rw [if_neg hw, if_neg hw]

/-- C9 witness: the spec scenario — a 3-row batch, `starting_index = 2`,
`max_batch_size = 4` — writes only the first 2 rows, into dataset rows 2-3,
dropping the third. -/
theorem C9_witness :
    ((2 : Nat) ≤ 4 ∧ 2 + min ([10, 20, 30] : List Nat).length (4 - 2)
        ≤ (List.replicate 4 (none : Option Nat)).length) ∧
    ∃ out, writeLeafDS (ρ := Nat) none 2 (some 4) [10, 20, 30] = .ok (out, 4) ∧
      out.length = (List.replicate 4 (none : Option Nat)).length ∧
      ∀ i, i < (List.replicate 4 (none : Option Nat)).length →
        out.getD i none =
          (if 2 ≤ i ∧ i < 2 + min ([10, 20, 30] : List Nat).length (4 - 2)
           then ([10, 20, 30] : List Nat)[i - 2]?
           else (List.replicate 4 (none : Option Nat)).getD i none) := by
  refine ⟨⟨by omega, by simp⟩, ?_⟩
  exact C9_amended_hdf5_append none 2 (some 4) [10, 20, 30]
    4 (min ([10, 20, 30] : List Nat).length (4 - 2))
    (List.replicate 4 (none : Option Nat)) rfl rfl rfl (by omega) (by simp)
